import Mathlib

/-!
Shallow embedding of the retrieval-and-annotation core of `app.py`
(ADGM corporate-agent compliance checker), together with theorems that
settle the specification claims about it.

Conventions of the embedding:
* Python strings are Lean `String`s; character-level work happens on
  `String.data : List Char`.
* A docx paragraph is modelled as its list of runs (python-docx's
  `paragraph.text` is the concatenation of the run texts, and
  `add_run` appends a run).
* Machine-level concerns (byte (de)serialization of the docx container)
  are identity on the paragraph list and are not modelled.
* Exceptions are modelled with `Option`: `none` is a raised exception.
-/

namespace App

/-! ### Python string helpers -/

/-- Python `\w` on ASCII input: letters, digits and underscore. -/
def isWordChar (c : Char) : Bool := c.isAlphanum || c = '_'

/-- Python `str.strip()`: drop leading and trailing whitespace. -/
def pyStrip (l : List Char) : List Char :=
  ((l.dropWhile Char.isWhitespace).reverse.dropWhile Char.isWhitespace).reverse

/-- Embeds `re.sub(r"\s+", " ", ·)`: every maximal whitespace run becomes one
space.  The flag records whether the previous character was whitespace (i.e.
whether we are inside a run whose replacement space was already emitted). -/
def collapseWsAux : Bool → List Char → List Char
  | _, [] => []
  | prevWs, c :: cs =>
    if c.isWhitespace then
      if prevWs then collapseWsAux true cs
      else ' ' :: collapseWsAux true cs
    else c :: collapseWsAux false cs

/-- Character-level body of `normalize_snippet`:
`re.sub(r"\s+", " ", sn.strip()).lower()`. -/
def normChars (l : List Char) : List Char :=
  (collapseWsAux false (pyStrip l)).map Char.toLower

/-- `normalize_snippet` from app.py. -/
def normalize_snippet (sn : String) : String := ⟨normChars sn.data⟩

/-- Helper for `pySplit`: accumulate the current word (reversed) while
scanning. -/
def splitWsAux : List Char → List Char → List String
  | acc, [] => if acc.isEmpty then [] else [⟨acc.reverse⟩]
  | acc, c :: cs =>
    if c.isWhitespace then
      if acc.isEmpty then splitWsAux [] cs
      else ⟨acc.reverse⟩ :: splitWsAux [] cs
    else splitWsAux (c :: acc) cs

/-- Python `str.split()` with no argument: split on whitespace runs,
dropping empty pieces. -/
def pySplit (s : String) : List String := splitWsAux [] s.data

/-- Helper for `re.findall(r"\w{4,}", ·)`: maximal runs of word
characters, in order. -/
def wordRunsAux : List Char → List Char → List (List Char)
  | acc, [] => if acc.isEmpty then [] else [acc.reverse]
  | acc, c :: cs =>
    if isWordChar c then wordRunsAux (c :: acc) cs
    else if acc.isEmpty then wordRunsAux [] cs
    else acc.reverse :: wordRunsAux [] cs

/-- `re.findall(r"\w{4,}", s)`: the maximal word-character runs of `s` of
length at least 4, in original order (the regex is greedy, so each match
is a full maximal run). -/
def significantWords (s : String) : List (List Char) :=
  (wordRunsAux [] s.data).filter (fun w => decide (4 ≤ w.length))

/-- Python `" ".join(words)`. -/
def pyJoinSpace : List String → String
  | [] => ""
  | [w] => w
  | w :: ws => w ++ " " ++ pyJoinSpace ws

/-! ### Data model -/

/-- A docx paragraph: its list of runs.  python-docx's `paragraph.text` is
the concatenation of the run texts. -/
structure Para where
  runs : List String
deriving DecidableEq

/-- `paragraph.text` of python-docx. -/
def Para.text (p : Para) : String := String.join p.runs

/-- The loosely-typed issue record coming from the oracle.  `none` models
an absent key (Python `issue.get(k, "")` then yields `""`).  The Python
keys `section` and `text` are the fields `sectionF` and `textF` (`section`
is a Lean keyword). -/
structure Issue where
  document : Option String
  snippet : Option String
  sectionF : Option String
  textF : Option String
  issue : Option String
  severity : Option String
  suggestion : Option String
deriving DecidableEq

/-- Python `a or b` for strings: `b` if `a` is falsy (empty), else `a`. -/
def pyOr (a b : String) : String := if a.isEmpty then b else a

/-! ### Location resolver (app.py lines 128-143) -/

/-- Loop of `find_paragraph_indices_containing`: paragraphs whose
normalized text is non-empty and contains the normalized snippet, with
their enumeration indices. -/
def findParasAux (snorm : List Char) : Nat → List Para → List Nat
  | _, [] => []
  | idx, p :: ps =>
    let pn := normChars p.text.data
    if pn.isEmpty then findParasAux snorm (idx + 1) ps
    else if snorm <:+: pn then idx :: findParasAux snorm (idx + 1) ps
    else findParasAux snorm (idx + 1) ps

/-- `find_paragraph_indices_containing` from app.py. -/
def find_paragraph_indices_containing (doc : List Para) (snippet : String) : List Nat :=
  findParasAux (normalize_snippet snippet).data 0 doc

/-- The loop condition of the fallback keyword phase (app.py line 175):
`any(w.lower() in para_norm for w in words)`. -/
def kwAny (words : List (List Char)) (p : Para) : Bool :=
  words.any (fun w => decide ((w.map Char.toLower) <:+: normChars p.text.data))

/-- Fallback keyword loop of `annotate_docx_bytes` (app.py lines 171-177):
index of the first paragraph whose normalized text contains one of the
lower-cased keywords. -/
def fallbackAux (words : List (List Char)) : Nat → List Para → Option Nat
  | _, [] => none
  | idx, p :: ps =>
    if kwAny words p then some idx
    else fallbackAux words (idx + 1) ps

/-- Snippet-to-indices resolution performed per issue inside
`annotate_docx_bytes`: the exact-containment phase, then (only when it
found nothing) the fallback keyword phase limited to the first 6
significant words and the first matching paragraph. -/
def resolveIndices (doc : List Para) (snippet : String) : List Nat :=
  let idxs := find_paragraph_indices_containing doc snippet
  if idxs.isEmpty then
    match fallbackAux ((significantWords snippet).take 6) 0 doc with
    | some i => [i]
    | none => []
  else idxs

/-! ### Annotator (app.py lines 145-193) -/

/-- The fixed-format annotation string of app.py line 183:
`f" [ADGM_ANNOTATION | Severity: {severity or 'Review'} | Suggestion: {suggestion}]"`. -/
def annotation_text (severity suggestion : String) : String :=
  " [ADGM_ANNOTATION | Severity: " ++ (if severity.isEmpty then "Review" else severity)
    ++ " | Suggestion: " ++ suggestion ++ "]"

/-- `doc.paragraphs[i].add_run s`: append one run to paragraph `i`
(no-op when `i` is out of range). -/
def appendRunAt : List Para → Nat → String → List Para
  | [], _, _ => []
  | p :: ps, 0, s => ⟨p.runs ++ [s]⟩ :: ps
  | p :: ps, Nat.succ n, s => p :: appendRunAt ps n s

/-- The search key of an issue: `issue.get("snippet","") or
issue.get("section","") or issue.get("text","")`, falling back to
`issue.get("issue","")` when that chain is empty. -/
def issueKey (i : Issue) : String :=
  let sn := pyOr (i.snippet.getD "") (pyOr (i.sectionF.getD "") (i.textF.getD ""))
  if sn.isEmpty then i.issue.getD "" else sn

/-- Body of the per-issue loop of `annotate_docx_bytes`: skip the issue
when no locatable text field is non-empty, otherwise resolve the key to
paragraph indices and append one annotation run at each.  (The
`issue.get("document","")` of the source is read but never used there.) -/
def applyIssue (doc : List Para) (i : Issue) : List Para :=
  let key := issueKey i
  if key.isEmpty then doc
  else
    (resolveIndices doc key).foldl
      (fun d pi =>
        appendRunAt d pi (annotation_text (i.severity.getD "") (i.suggestion.getD "")))
      doc

/-- `annotate_docx_bytes` from app.py, on the paragraph-list view of the
document (byte (de)serialization is identity on paragraphs). -/
def annotate_docx_bytes (doc : List Para) (issues : List Issue) : List Para :=
  issues.foldl applyIssue doc

/-! ### Chunker (app.py lines 75-87) -/

/-- The `while i < n` loop of `chunk_text`.  The fuel argument models the
number of remaining iterations; the Python loop diverges when
`chunk_size - overlap <= 0` (there `i` never advances), which the model
renders as fuel exhaustion.  With `overlap < chunk_size` the index gains
at least 1 per iteration, so `words.length` fuel is never exhausted. -/
def chunkLoop (words : List String) (chunk_size overlap : Nat) : Nat → Nat → List String
  | _, 0 => []
  | i, fuel + 1 =>
    if i < words.length then
      pyJoinSpace ((words.drop i).take chunk_size)
        :: chunkLoop words chunk_size overlap (i + (chunk_size - overlap)) fuel
    else []

/-- `chunk_text` from app.py (defaults there: `chunk_size=400, overlap=50`;
the one call site uses `200, 40`). -/
def chunk_text (text : String) (chunk_size overlap : Nat) : List String :=
  chunkLoop (pySplit text) chunk_size overlap 0 (pySplit text).length

/-! ### Relevance retriever (app.py lines 89-126)

`TfidfVectorizer.fit_transform` is third-party (scikit-learn) and is
modelled as an abstract `vectorize` argument returning `none` when it
raises (it raises `ValueError` when the joint vocabulary is empty).  Its
documented output contract — rows are L2-normalized nonnegative
vectors — appears as hypotheses of the retriever theorems.  Scores are
rationals; the row-times-column products of `chunk_vecs @ query_vec.T`
are the dot products below. -/

/-- Chunk collection loop of `build_rag_context` (lines 97-102):
`(source-label, chunk-text)` pairs across all reference files. -/
def buildChunkPairs (refs : List (String × String)) : List (String × String) :=
  refs.flatMap (fun fr =>
    ((chunk_text fr.2 200 40).enum).map
      (fun ic => (fr.1 ++ "::chunk" ++ toString (ic.1 + 1), ic.2)))

/-- Sparse-matrix row-times-column product: dot product of two vectors
(`zipWith` truncates at the shorter operand; entries beyond either
length are zero in the sparse representation). -/
def dotQ (u v : List ℚ) : ℚ := (List.zipWith (· * ·) u v).sum

/-- Insertion step of the model of `np.argsort` (ascending, stable):
order pairs `(original index, value)` by value, ties by original index. -/
def insertAsc (x : Nat × ℚ) : List (Nat × ℚ) → List (Nat × ℚ)
  | [] => [x]
  | y :: ys =>
    if x.2 < y.2 ∨ (x.2 = y.2 ∧ x.1 < y.1) then x :: y :: ys
    else y :: insertAsc x ys

/-- Model of `np.argsort sims`: indices of `sims` sorted by value
ascending, ties by original index ascending (a deterministic, stable
reading of numpy's unspecified tie order). -/
def argsort (sims : List ℚ) : List Nat :=
  (sims.enum.foldr insertAsc []).map Prod.fst

/-- `np.argsort(sims)[-top_k:][::-1]` (line 118): the last `top_k`
positions of the ascending argsort, reversed.  Python's `[-0:]` slice
is the whole array, so at `top_k = 0` nothing is dropped. -/
def topIdx (sims : List ℚ) (top_k : Nat) : List Nat :=
  ((argsort sims).drop
    (if top_k = 0 then 0 else (argsort sims).length - top_k)).reverse

/-- The indices kept by the comprehension filter `if sims[i] > 0` of
line 119. -/
def keptIdx (sims : List ℚ) (top_k : Nat) : List Nat :=
  (topIdx sims top_k).filter (fun i => decide (0 < sims.getD i 0))

/-- `top_chunks` of line 119: `(chunk_sources[i], chunk_texts[i], sims[i])`
for the kept indices. -/
def top_chunks (chunk_sources chunk_texts : List String) (sims : List ℚ) (top_k : Nat) :
    List (String × String × ℚ) :=
  (keptIdx sims top_k).map
    (fun i => (chunk_sources.getD i "", chunk_texts.getD i "", sims.getD i 0))

/-- Left-pad with zeros to 3 digits, for the fractional part of `%.3f`. -/
def pad3 (n : Nat) : String :=
  if n < 10 then "00" ++ toString n
  else if n < 100 then "0" ++ toString n
  else toString n

/-- Python `f"{score:.3f}"` on a rational score (rounding ties differ
from Python's float formatting only at exact half-thousandths, which no
claim exercises). -/
def fmtSim (q : ℚ) : String :=
  (if q < 0 then "-" else "")
    ++ toString ((round (|q| * 1000) : ℤ).toNat / 1000)
    ++ "." ++ pad3 ((round (|q| * 1000) : ℤ).toNat % 1000)

/-- `build_rag_context` from app.py.  `vectorize` abstracts
`TfidfVectorizer(...).fit_transform`; `none` models a raised exception,
caught by the `except` of line 125 (which returns `""`). -/
def build_rag_context (vectorize : List String → Option (List (List ℚ)))
    (document_text : String) (refs : List (String × String)) (top_k : Nat) : String :=
  let pairs := buildChunkPairs refs
  let chunk_sources := pairs.map Prod.fst
  let chunk_texts := pairs.map Prod.snd
  if chunk_texts.isEmpty then ""
  else
    match vectorize (chunk_texts ++ [document_text]) with
    | none => ""
    | some vecs =>
      let query_vec := vecs.getLastD []
      let chunk_vecs := vecs.dropLast
      let sims := chunk_vecs.map (fun cv => dotQ cv query_vec)
      let tc := top_chunks chunk_sources chunk_texts sims top_k
      String.intercalate "\n\n"
        (tc.map (fun sct =>
          "--- Source: " ++ sct.1 ++ " (sim=" ++ fmtSim sct.2.2 ++ ") ---\n" ++ sct.2.1))

/-! ### Oracle response parsing (app.py lines 291-306)

The response handling needs `json.loads`, so a JSON value type and a
recursive-descent parser (with fuel bounding the nesting depth) are
embedded here.  Numbers are kept as their lexemes: no claim inspects a
numeric value, only whether parsing succeeds. -/

/-- A parsed JSON value. -/
inductive JVal where
  | jnull : JVal
  | jbool : Bool → JVal
  | jnum : String → JVal
  | jstr : String → JVal
  | jarr : List JVal → JVal
  | jobj : List (String × JVal) → JVal

/-- JSON insignificant whitespace (exactly space, tab, newline, carriage
return, as in Python's `json`). -/
def isJsonWs (c : Char) : Bool := c = ' ' || c = '\t' || c = '\n' || c = '\r'

/-- Skip insignificant whitespace. -/
def skipJsonWs (l : List Char) : List Char := l.dropWhile isJsonWs

/-- Decode one string-escape character (after a backslash). `\u` escapes
are handled separately. -/
def unescapeChar (c : Char) : Option Char :=
  if c = '"' then some '"'
  else if c = '\\' then some '\\'
  else if c = '/' then some '/'
  else if c = 'b' then some (Char.ofNat 8)
  else if c = 'f' then some (Char.ofNat 12)
  else if c = 'n' then some '\n'
  else if c = 'r' then some '\r'
  else if c = 't' then some '\t'
  else none

/-- Hex digit value. -/
def hexVal (c : Char) : Option Nat :=
  if c.isDigit then some (c.toNat - 48)
  else if 'a' ≤ c ∧ c ≤ 'f' then some (c.toNat - 87)
  else if 'A' ≤ c ∧ c ≤ 'F' then some (c.toNat - 70)
  else none

/-- Body of a JSON string after the opening quote: returns the decoded
content and the rest after the closing quote.  Strict mode: raw control
characters are rejected.  (Surrogate-pair recombination of paired `\u`
escapes is not modelled; no oracle-response claim uses `\u`.) -/
def parseJStr : List Char → Option (List Char × List Char)
  | [] => none
  | '"' :: rest => some ([], rest)
  | '\\' :: 'u' :: a :: b :: c :: d :: rest =>
    match hexVal a, hexVal b, hexVal c, hexVal d with
    | some va, some vb, some vc, some vd =>
      (parseJStr rest).map
        (fun p => (Char.ofNat (((va * 16 + vb) * 16 + vc) * 16 + vd) :: p.1, p.2))
    | _, _, _, _ => none
  | '\\' :: e :: rest =>
    match unescapeChar e with
    | some c => (parseJStr rest).map (fun p => (c :: p.1, p.2))
    | none => none
  | c :: rest =>
    if c.toNat < 32 then none
    else (parseJStr rest).map (fun p => (c :: p.1, p.2))

/-- Digit run splitter used by the number grammar. -/
def spanDigits (l : List Char) : List Char × List Char :=
  (l.takeWhile Char.isDigit, l.dropWhile Char.isDigit)

/-- JSON number grammar after an optional leading minus:
`(0|[1-9][0-9]*)(\.[0-9]+)?([eE][+-]?[0-9]+)?`; returns the lexeme. -/
def parseNumTail (l : List Char) : Option (List Char × List Char) :=
  match spanDigits l with
  | ([], _) => none
  | (d :: ds, rest) =>
    if d = '0' ∧ ¬ds.isEmpty then none
    else
      let intPart := d :: ds
      let fracState :=
        match rest with
        | '.' :: r2 =>
          match spanDigits r2 with
          | ([], _) => none
          | (fs, r3) => some (intPart ++ '.' :: fs, r3)
        | _ => some (intPart, rest)
      match fracState with
      | none => none
      | some (lex, r4) =>
        match r4 with
        | 'e' :: r5 =>
          match r5 with
          | '+' :: r6 =>
            match spanDigits r6 with
            | ([], _) => none
            | (es, r7) => some (lex ++ 'e' :: '+' :: es, r7)
          | '-' :: r6 =>
            match spanDigits r6 with
            | ([], _) => none
            | (es, r7) => some (lex ++ 'e' :: '-' :: es, r7)
          | _ =>
            match spanDigits r5 with
            | ([], _) => none
            | (es, r7) => some (lex ++ 'e' :: es, r7)
        | 'E' :: r5 =>
          match r5 with
          | '+' :: r6 =>
            match spanDigits r6 with
            | ([], _) => none
            | (es, r7) => some (lex ++ 'E' :: '+' :: es, r7)
          | '-' :: r6 =>
            match spanDigits r6 with
            | ([], _) => none
            | (es, r7) => some (lex ++ 'E' :: '-' :: es, r7)
          | _ =>
            match spanDigits r5 with
            | ([], _) => none
            | (es, r7) => some (lex ++ 'E' :: es, r7)
        | _ => some (lex, r4)

mutual

/-- Recursive-descent JSON value parser; the fuel bounds the nesting
depth (each recursive use sits behind at least one consumed character,
so `input length + 1` fuel always suffices).  Accepts Python `json`'s
default extensions `NaN`, `Infinity`, `-Infinity`. -/
def parseJVal : Nat → List Char → Option (JVal × List Char)
  | 0, _ => none
  | fuel + 1, l =>
    match skipJsonWs l with
    | [] => none
    | 't' :: 'r' :: 'u' :: 'e' :: rest => some (JVal.jbool true, rest)
    | 'f' :: 'a' :: 'l' :: 's' :: 'e' :: rest => some (JVal.jbool false, rest)
    | 'n' :: 'u' :: 'l' :: 'l' :: rest => some (JVal.jnull, rest)
    | 'N' :: 'a' :: 'N' :: rest => some (JVal.jnum "NaN", rest)
    | 'I' :: 'n' :: 'f' :: 'i' :: 'n' :: 'i' :: 't' :: 'y' :: rest =>
      some (JVal.jnum "Infinity", rest)
    | '-' :: 'I' :: 'n' :: 'f' :: 'i' :: 'n' :: 'i' :: 't' :: 'y' :: rest =>
      some (JVal.jnum "-Infinity", rest)
    | '"' :: rest => (parseJStr rest).map (fun p => (JVal.jstr ⟨p.1⟩, p.2))
    | '[' :: rest =>
      (match skipJsonWs rest with
       | ']' :: r2 => some (JVal.jarr [], r2)
       | _ => (parseJElems fuel rest).map (fun p => (JVal.jarr p.1, p.2)))
    | '\x7b' :: rest =>
      (match skipJsonWs rest with
       | '\x7d' :: r2 => some (JVal.jobj [], r2)
       | _ => (parseJMembers fuel rest).map (fun p => (JVal.jobj p.1, p.2)))
    | '-' :: rest =>
      (parseNumTail rest).map (fun p => (JVal.jnum ⟨'-' :: p.1⟩, p.2))
    | l' => (parseNumTail l').map (fun p => (JVal.jnum ⟨p.1⟩, p.2))

/-- Comma-separated array elements followed by `]`. -/
def parseJElems : Nat → List Char → Option (List JVal × List Char)
  | 0, _ => none
  | fuel + 1, l =>
    match parseJVal fuel l with
    | none => none
    | some (v, rest) =>
      match skipJsonWs rest with
      | ',' :: r2 =>
        (parseJElems fuel r2).map (fun p => (v :: p.1, p.2))
      | ']' :: r2 => some ([v], r2)
      | _ => none

/-- Comma-separated `"key": value` members followed by the closing
brace. -/
def parseJMembers : Nat → List Char → Option (List (String × JVal) × List Char)
  | 0, _ => none
  | fuel + 1, l =>
    match skipJsonWs l with
    | '"' :: rest =>
      (match parseJStr rest with
       | none => none
       | some (key, r2) =>
         match skipJsonWs r2 with
         | ':' :: r3 =>
           (match parseJVal fuel r3 with
            | none => none
            | some (v, r4) =>
              match skipJsonWs r4 with
              | ',' :: r5 =>
                (parseJMembers fuel r5).map (fun p => ((⟨key⟩, v) :: p.1, p.2))
              | '\x7d' :: r5 => some ([(⟨key⟩, v)], r5)
              | _ => none)
         | _ => none)
    | _ => none

end

/-- Python `json.loads`: parse one JSON value and require only
whitespace to remain. -/
def json_loads (s : String) : Option JVal :=
  match parseJVal (s.data.length + 1) s.data with
  | some (v, rest) => if (skipJsonWs rest).isEmpty then some v else none
  | none => none

/-- The substring captured by `re.search(r"(\{[\s\S]*\})", raw)`: from
the first opening brace to the last closing brace of the text (the
leftmost match of the pattern starts at the first `{` followed by some
later `}`, and the greedy `[\s\S]*` extends it to the last `}`).
`none` when the pattern does not match. -/
def brace_extract (l : List Char) : Option (List Char) :=
  match l.findIdx? (fun c => c = '\x7b') with
  | none => none
  | some i =>
    if (l.drop (i + 1)).contains '\x7d' then
      match l.reverse.findIdx? (fun c => c = '\x7d') with
      | some rj => some ((l.drop i).take (l.length - rj - i))
      | none => none
    else none

/-- The `parsed` value of app.py lines 293-302: try `json.loads` on the
whole response; on failure, extract the first-brace-to-last-brace
substring and parse that (a failure there propagates as an exception to
the outer handler of line 312, modelled as `none`); when the regex does
not match, fall back to `{"issues": [], "raw": raw_text}`. -/
def parse_oracle_response (raw : String) : Option JVal :=
  match json_loads raw with
  | some v => some v
  | none =>
    match brace_extract raw.data with
    | some sub => json_loads ⟨sub⟩
    | none => some (JVal.jobj [("issues", JVal.jarr []), ("raw", JVal.jstr raw)])

/-- Python `dict.get` on a parsed JSON value (`json.loads` keeps the last
of duplicate keys, hence lookup in the reversed member list); `none` for
a missing key or a non-object (a non-object makes the Python attribute
access raise, reaching the outer handler, which also ends in zero
issues). -/
def jget (v : JVal) (k : String) : Option JVal :=
  match v with
  | JVal.jobj kvs => kvs.reverse.lookup k
  | _ => none

/-- Lines 304-306: `issues = parsed.get("issues", [])` followed by the
`isinstance(issues, list)` guard — anything but a JSON list becomes the
empty issue list. -/
def issues_field (v : JVal) : List JVal :=
  match jget v "issues" with
  | some (JVal.jarr xs) => xs
  | some _ => []
  | none => []

/-- The issue list the pipeline extracts from a raw oracle response
(`none` from `parse_oracle_response` is the outer `except`, where
line 314 sets `issues = []`). -/
def extracted_issues (raw : String) : List JVal :=
  match parse_oracle_response raw with
  | none => []
  | some parsed => issues_field parsed

/-- The preserved raw text (`parsed["raw"]`) available for display/audit
after the no-JSON fallback. -/
def preserved_raw (raw : String) : Option JVal :=
  match parse_oracle_response raw with
  | none => none
  | some parsed => jget parsed "raw"

/-- Modelled from the spec: "locate and parse the first balanced JSON
object substring within the text" — scan start positions left to right
and return the parse of the first position where a balanced JSON object
begins.  This is the spec-side reading that claim C6 attributes to the
code, stated for comparison with `parse_oracle_response`. -/
def firstJsonObjectAux (fuel : Nat) : List Char → Option JVal
  | [] => none
  | c :: rest =>
    if c = '\x7b' then
      match parseJVal fuel (c :: rest) with
      | some (v, _) => some v
      | none => firstJsonObjectAux fuel rest
    else firstJsonObjectAux fuel rest

/-- Modelled from the spec: the first balanced JSON object substring of
`raw`, parsed. -/
def spec_first_json_object (raw : String) : Option JVal :=
  firstJsonObjectAux (raw.data.length + 1) raw.data

/-! ### Definitions used by the statements and proofs -/

/-- The append-only relation between a document and a later state of it:
same paragraph count and every paragraph's run list only extended. -/
def AppendOnly (d d' : List Para) : Prop :=
  d'.length = d.length
  ∧ ∀ j, ∃ t, ((d'.getD j ⟨[]⟩).runs) = ((d.getD j ⟨[]⟩).runs) ++ t

/-- The start indices produced by the `while i < n` loop of
`chunk_text`, with the same fuel discipline as `chunkLoop`. -/
def chunkStartsAux (n step : Nat) : Nat → Nat → List Nat
  | _, 0 => []
  | i, fuel + 1 => if i < n then i :: chunkStartsAux n step (i + step) fuel else []

/-- All chunk start indices of a text of `n` words with the given
stride. -/
def chunkStarts (n step : Nat) : List Nat := chunkStartsAux n step 0 n

/-- Non-strict ascending order on `(index, value)` pairs: by value, ties
by index. -/
def ordP (a b : Nat × ℚ) : Prop := a.2 < b.2 ∨ (a.2 = b.2 ∧ a.1 ≤ b.1)

/-- Strict ascending order on `(index, value)` pairs. -/
def strictP (a b : Nat × ℚ) : Prop := a.2 < b.2 ∨ (a.2 = b.2 ∧ a.1 < b.1)

/-! ### Helper lemmas: location resolver -/

/-- The exact-containment condition on one paragraph: non-empty
normalized text that contains `snorm`. -/
def paraMatches (snorm : List Char) (p : Para) : Prop :=
  ¬(normChars p.text.data).isEmpty ∧ snorm <:+: normChars p.text.data

instance (snorm : List Char) (p : Para) : Decidable (paraMatches snorm p) := by
  unfold paraMatches; infer_instance

lemma findParasAux_ge (snorm : List Char) :
    ∀ (ps : List Para) (k j : Nat), j ∈ findParasAux snorm k ps → k ≤ j := by
  intro ps
  induction ps with
  | nil => intro k j h; simp [findParasAux] at h
  | cons p ps ih =>
    intro k j h
    simp only [findParasAux] at h
    split_ifs at h with h1 h2
    · exact Nat.le_of_succ_le (ih (k + 1) j h)
    · rcases List.mem_cons.1 h with rfl | h3
      · exact Nat.le_refl j
      · exact Nat.le_of_succ_le (ih (k + 1) j h3)
    · exact Nat.le_of_succ_le (ih (k + 1) j h)

lemma findParasAux_sorted (snorm : List Char) :
    ∀ (ps : List Para) (k : Nat), (findParasAux snorm k ps).Pairwise (· < ·) := by
  intro ps
  induction ps with
  | nil => intro k; simp [findParasAux]
  | cons p ps ih =>
    intro k
    simp only [findParasAux]
    split_ifs with h1 h2
    · exact ih (k + 1)
    · exact List.pairwise_cons.2
        ⟨fun j hj => Nat.lt_of_succ_le (findParasAux_ge snorm ps (k + 1) j hj), ih (k + 1)⟩
    · exact ih (k + 1)

lemma findParasAux_mem (snorm : List Char) :
    ∀ (ps : List Para) (k j : Nat),
      j ∈ findParasAux snorm k ps ↔
        k ≤ j ∧ ∃ p, ps.get? (j - k) = some p ∧ paraMatches snorm p := by
  intro ps
  induction ps with
  | nil => intro k j; simp [findParasAux]
  | cons p ps ih =>
    intro k j
    simp only [findParasAux]
    constructor
    · intro h
      split_ifs at h with h1 h2
      · have hk := findParasAux_ge snorm ps (k + 1) j h
        have := (ih (k + 1) j).1 h
        refine ⟨by omega, ?_⟩
        rcases this.2 with ⟨q, hq, hm⟩
        refine ⟨q, ?_, hm⟩
        have : j - k = (j - (k + 1)) + 1 := by omega
        rw [this, List.get?_cons_succ]
        exact hq
      · rcases List.mem_cons.1 h with rfl | h3
        · exact ⟨Nat.le_refl j, p, by simp, ⟨by simp [h1], h2⟩⟩
        · have hk := findParasAux_ge snorm ps (k + 1) j h3
          have := (ih (k + 1) j).1 h3
          refine ⟨by omega, ?_⟩
          rcases this.2 with ⟨q, hq, hm⟩
          refine ⟨q, ?_, hm⟩
          have : j - k = (j - (k + 1)) + 1 := by omega
          rw [this, List.get?_cons_succ]
          exact hq
      · have hk := findParasAux_ge snorm ps (k + 1) j h
        have := (ih (k + 1) j).1 h
        refine ⟨by omega, ?_⟩
        rcases this.2 with ⟨q, hq, hm⟩
        refine ⟨q, ?_, hm⟩
        have : j - k = (j - (k + 1)) + 1 := by omega
        rw [this, List.get?_cons_succ]
        exact hq
    · rintro ⟨hk, q, hq, hm⟩
      rcases Nat.eq_or_lt_of_le hk with rfl | hlt
      · simp only [Nat.sub_self, List.get?_cons_zero, Option.some.injEq] at hq
        subst hq
        split_ifs with h1 h2
        · exact absurd hm.1 (by simp [h1])
        · exact List.mem_cons_self _ _
        · exact absurd hm.2 h2
      · have hj : j - k = (j - (k + 1)) + 1 := by omega
        rw [hj, List.get?_cons_succ] at hq
        have hmem : j ∈ findParasAux snorm (k + 1) ps :=
          (ih (k + 1) j).2 ⟨by omega, q, hq, hm⟩
        split_ifs with h1 h2
        · exact hmem
        · exact List.mem_cons_of_mem _ hmem
        · exact hmem

/-- Claim C1, amended with the non-empty-paragraph proviso: the exact
containment phase returns exactly the indices of the paragraphs whose
normalized text is non-empty and contains the normalized snippet as a
substring, in strictly ascending index order. -/
theorem claim_C1_exact_containment (doc : List Para) (snippet : String) :
    (∀ j, j ∈ find_paragraph_indices_containing doc snippet ↔
      ∃ p, doc.get? j = some p ∧ ¬(normChars p.text.data).isEmpty
        ∧ (normalize_snippet snippet).data <:+: normChars p.text.data)
    ∧ (find_paragraph_indices_containing doc snippet).Pairwise (· < ·) := by
  constructor
  · intro j
    rw [find_paragraph_indices_containing, findParasAux_mem]
    constructor
    · rintro ⟨-, q, hq, hm⟩
      exact ⟨q, by simpa using hq, hm.1, hm.2⟩
    · rintro ⟨q, hq, h1, h2⟩
      exact ⟨Nat.zero_le j, q, by simpa using hq, h1, h2⟩
  · exact findParasAux_sorted _ _ _

/-- Claim C1 witness: a concrete snippet contained (after normalization)
in a concrete paragraph is resolved to that paragraph's index. -/
theorem claim_C1_witness :
    0 ∈ find_paragraph_indices_containing [⟨["Hello  WORLD"]⟩] "hello world" :=
  ((claim_C1_exact_containment [⟨["Hello  WORLD"]⟩] "hello world").1 0).2
    ⟨⟨["Hello  WORLD"]⟩, by decide⟩

/-- Claim C1 counterexample: for a whitespace-only snippet and a
whitespace-only paragraph, the paragraph's normalized text (empty)
contains the normalized snippet (empty), yet the code skips the
paragraph because its normalized text is empty, so its index is not
returned — the claim as stated predicts index 0. -/
theorem claim_C1_counterexample :
    find_paragraph_indices_containing [⟨[" "]⟩] " " = []
    ∧ (normalize_snippet " ").data <:+: normChars (Para.text ⟨[" "]⟩).data := by
  constructor
  · rfl
  · decide

/-! ### Helper lemmas: fallback phase -/

lemma fallbackAux_some (words : List (List Char)) :
    ∀ (ps : List Para) (k i : Nat), fallbackAux words k ps = some i →
      k ≤ i ∧ (∃ p, ps.get? (i - k) = some p ∧ kwAny words p = true)
        ∧ ∀ j q, j < i - k → ps.get? j = some q → kwAny words q = false := by
  intro ps
  induction ps with
  | nil => intro k i h; simp [fallbackAux] at h
  | cons p ps ih =>
    intro k i h
    simp only [fallbackAux] at h
    split_ifs at h with h1
    · cases h
      refine ⟨Nat.le_refl _, ⟨p, by simp, h1⟩, ?_⟩
      intro j q hj
      exact absurd hj (by omega)
    · have := ih (k + 1) i h
      rcases this with ⟨hk, ⟨q, hq, hmq⟩, hall⟩
      refine ⟨by omega, ⟨q, ?_, hmq⟩, ?_⟩
      · have : i - k = (i - (k + 1)) + 1 := by omega
        rw [this, List.get?_cons_succ]
        exact hq
      · intro j r hj hr
        match j, hr with
        | 0, hr =>
          simp only [List.get?_cons_zero, Option.some.injEq] at hr
          subst hr
          simpa using h1
        | j + 1, hr =>
          rw [List.get?_cons_succ] at hr
          exact hall j r (by omega) hr

lemma fallbackAux_none (words : List (List Char)) :
    ∀ (ps : List Para) (k : Nat), (∀ p ∈ ps, kwAny words p = false) →
      fallbackAux words k ps = none := by
  intro ps
  induction ps with
  | nil => intro k _; simp [fallbackAux]
  | cons p ps ih =>
    intro k h
    simp only [fallbackAux, h p (List.mem_cons_self p ps)]
    exact ih (k + 1) (fun q hq => h q (List.mem_cons_of_mem p hq))

lemma fallbackAux_isNone (words : List (List Char)) :
    ∀ (ps : List Para) (k : Nat), fallbackAux words k ps = none →
      ∀ p ∈ ps, kwAny words p = false := by
  intro ps
  induction ps with
  | nil => intro k _ p hp; simp at hp
  | cons p ps ih =>
    intro k h q hq
    simp only [fallbackAux] at h
    cases hk : kwAny words p with
    | true => rw [hk] at h; simp at h
    | false =>
      rw [hk] at h
      simp only [Bool.false_eq_true, if_false] at h
      rcases List.mem_cons.1 hq with rfl | hq2
      · exact hk
      · exact ih (k + 1) h q hq2

/-- Claim C2: the fallback keyword phase runs only when the exact phase
found nothing; it uses at most the first 6 significant words of the
snippet (a prefix of the word sequence, hence in original order) and
contributes exactly one index — that of the first paragraph one of
whose lower-cased significant words occurs in its normalized text —
whenever such a paragraph exists, and none otherwise. -/
theorem claim_C2_fallback_phase (doc : List Para) (snippet : String) :
    (find_paragraph_indices_containing doc snippet ≠ [] →
      resolveIndices doc snippet = find_paragraph_indices_containing doc snippet)
    ∧ (find_paragraph_indices_containing doc snippet = [] →
        (resolveIndices doc snippet).length ≤ 1
        ∧ ((significantWords snippet).take 6).length ≤ 6
        ∧ (significantWords snippet).take 6 <+: significantWords snippet
        ∧ (∀ i, resolveIndices doc snippet = [i] →
            (∃ p, doc.get? i = some p
              ∧ kwAny ((significantWords snippet).take 6) p = true)
            ∧ ∀ j q, j < i → doc.get? j = some q →
                kwAny ((significantWords snippet).take 6) q = false)
        ∧ (resolveIndices doc snippet = [] ↔
            ∀ p ∈ doc, kwAny ((significantWords snippet).take 6) p = false)) := by
  constructor
  · intro h
    have he : (find_paragraph_indices_containing doc snippet).isEmpty = false := by
      cases hfind : find_paragraph_indices_containing doc snippet with
      | nil => exact absurd hfind h
      | cons a l => simp
    simp [resolveIndices, he]
  · intro h
    have he : (find_paragraph_indices_containing doc snippet).isEmpty = true := by
      simp [h]
    refine ⟨?_, ?_, ?_, ?_, ?_⟩
    · simp only [resolveIndices, he, if_true]
      cases hf : fallbackAux ((significantWords snippet).take 6) 0 doc <;> simp
    · simp [List.length_take]
    · exact List.take_prefix 6 _
    · intro i hi
      simp only [resolveIndices, he, if_true] at hi
      cases hf : fallbackAux ((significantWords snippet).take 6) 0 doc with
      | none => rw [hf] at hi; simp at hi
      | some i0 =>
        rw [hf] at hi
        simp only [List.cons.injEq, and_true] at hi
        subst hi
        have := fallbackAux_some _ doc 0 i0 hf
        rcases this with ⟨-, ⟨p, hp, hmp⟩, hall⟩
        simp only [Nat.sub_zero] at hp hall
        exact ⟨⟨p, hp, hmp⟩, fun j q hj hq => hall j q hj hq⟩
    · simp only [resolveIndices, he, if_true]
      cases hf : fallbackAux ((significantWords snippet).take 6) 0 doc with
      | none =>
        exact iff_of_true rfl (fun p hp => fallbackAux_isNone _ doc 0 hf p hp)
      | some i0 =>
        refine iff_of_false (by simp) ?_
        intro hall
        rcases fallbackAux_some _ doc 0 i0 hf with ⟨-, ⟨p, hp, hmp⟩, -⟩
        simp only [Nat.sub_zero] at hp
        rw [hall p (List.get?_mem hp)] at hmp
        exact absurd hmp (by simp)

/-- Claim C2 witness: a snippet with no exact containment match falls
back to the first paragraph sharing the significant word
"jurisdiction". -/
theorem claim_C2_witness :
    (resolveIndices [⟨["alpha beta"]⟩, ⟨["gamma jurisdiction here"]⟩]
      "jurisdiction missing").length ≤ 1 :=
  ((claim_C2_fallback_phase [⟨["alpha beta"]⟩, ⟨["gamma jurisdiction here"]⟩]
    "jurisdiction missing").2 (by decide)).1

/-! ### Helper lemmas: annotator is append-only -/

lemma foldl_append_data : ∀ (l : List String) (s : String),
    (List.foldl (fun r t => r ++ t) s l).data = s.data ++ (l.map String.data).flatten := by
  intro l
  induction l with
  | nil => intro s; simp
  | cons a l ih =>
    intro s
    simp only [List.foldl_cons, ih, List.map_cons, List.flatten_cons, String.data_append]
    simp [List.append_assoc]

lemma join_data (l : List String) : (String.join l).data = (l.map String.data).flatten := by
  simpa [String.join] using foldl_append_data l ""

lemma appendRunAt_length : ∀ (d : List Para) (i : Nat) (s : String),
    (appendRunAt d i s).length = d.length := by
  intro d
  induction d with
  | nil => intro i s; rfl
  | cons p ps ih =>
    intro i s
    cases i with
    | zero => rfl
    | succ n => simpa [appendRunAt] using ih n s

lemma appendRunAt_runs : ∀ (d : List Para) (i : Nat) (s : String) (j : Nat),
    ∃ t, ((appendRunAt d i s).getD j ⟨[]⟩).runs = ((d.getD j ⟨[]⟩).runs) ++ t := by
  intro d
  induction d with
  | nil => intro i s j; exact ⟨[], by simp [appendRunAt]⟩
  | cons p ps ih =>
    intro i s j
    cases i with
    | zero =>
      cases j with
      | zero => exact ⟨[s], by simp [appendRunAt]⟩
      | succ m => exact ⟨[], by simp [appendRunAt]⟩
    | succ n =>
      cases j with
      | zero => exact ⟨[], by simp [appendRunAt]⟩
      | succ m => simpa [appendRunAt] using ih n s m

lemma appendOnly_refl (d : List Para) : AppendOnly d d :=
  ⟨rfl, fun _ => ⟨[], by simp⟩⟩

lemma appendOnly_trans {a b c : List Para} (h1 : AppendOnly a b) (h2 : AppendOnly b c) :
    AppendOnly a c := by
  refine ⟨h2.1.trans h1.1, fun j => ?_⟩
  rcases h1.2 j with ⟨t1, ht1⟩
  rcases h2.2 j with ⟨t2, ht2⟩
  exact ⟨t1 ++ t2, by rw [ht2, ht1, List.append_assoc]⟩

lemma appendOnly_appendRunAt (d : List Para) (i : Nat) (s : String) :
    AppendOnly d (appendRunAt d i s) :=
  ⟨appendRunAt_length d i s, fun j => appendRunAt_runs d i s j⟩

lemma appendOnly_foldl {α : Type} (f : List Para → α → List Para)
    (hf : ∀ d a, AppendOnly d (f d a)) :
    ∀ (l : List α) (d : List Para), AppendOnly d (l.foldl f d) := by
  intro l
  induction l with
  | nil => intro d; exact appendOnly_refl d
  | cons a l ih =>
    intro d
    exact appendOnly_trans (hf d a) (ih (f d a))

lemma appendOnly_applyIssue (doc : List Para) (i : Issue) :
    AppendOnly doc (applyIssue doc i) := by
  simp only [applyIssue]
  split_ifs with h
  · exact appendOnly_refl doc
  · exact appendOnly_foldl _ (fun d pi => appendOnly_appendRunAt d pi _) _ doc

/-- Claim C3: the annotator is append-only — the paragraph count is
unchanged (no paragraph removed, order of the index-addressed sequence
preserved), every paragraph's run list in the output extends its
original run list, and hence every paragraph's original text is a
prefix of (or equal to) its annotated text. -/
theorem claim_C3_append_only (doc : List Para) (issues : List Issue) :
    (annotate_docx_bytes doc issues).length = doc.length
    ∧ ∀ j,
      (∃ t, ((annotate_docx_bytes doc issues).getD j ⟨[]⟩).runs
          = ((doc.getD j ⟨[]⟩).runs) ++ t)
      ∧ ((doc.getD j ⟨[]⟩).text).data
          <+: (((annotate_docx_bytes doc issues).getD j ⟨[]⟩).text).data := by
  have h : AppendOnly doc (annotate_docx_bytes doc issues) :=
    appendOnly_foldl applyIssue appendOnly_applyIssue issues doc
  refine ⟨h.1, fun j => ⟨h.2 j, ?_⟩⟩
  rcases h.2 j with ⟨t, ht⟩
  refine ⟨((t.map String.data).flatten), ?_⟩
  simp only [Para.text, join_data, ht, List.map_append, List.flatten_append]

/-- Claim C3 witness: the invariant at a concrete document and issue
list. -/
theorem claim_C3_witness :
    (annotate_docx_bytes [⟨["hello world"]⟩]
      [⟨none, some "hello", none, none, none, some "High", some "fix"⟩]).length = 1 :=
  (claim_C3_append_only [⟨["hello world"]⟩]
    [⟨none, some "hello", none, none, none, some "High", some "fix"⟩]).1

/-! ### Helper lemmas: per-index effect of the annotation fold -/

lemma appendRunAt_getD_ne : ∀ (d : List Para) (i : Nat) (s : String) (j : Nat), i ≠ j →
    (appendRunAt d i s).getD j ⟨[]⟩ = d.getD j ⟨[]⟩ := by
  intro d
  induction d with
  | nil => intro i s j _; rfl
  | cons p ps ih =>
    intro i s j hij
    cases i with
    | zero =>
      cases j with
      | zero => exact absurd rfl hij
      | succ m => simp [appendRunAt]
    | succ n =>
      cases j with
      | zero => simp [appendRunAt]
      | succ m => simpa [appendRunAt] using ih n s m (by omega)

lemma appendRunAt_getD_eq : ∀ (d : List Para) (i : Nat) (s : String), i < d.length →
    (appendRunAt d i s).getD i ⟨[]⟩ = ⟨((d.getD i ⟨[]⟩).runs) ++ [s]⟩ := by
  intro d
  induction d with
  | nil => intro i s h; simp at h
  | cons p ps ih =>
    intro i s h
    cases i with
    | zero => simp [appendRunAt]
    | succ n => simpa [appendRunAt] using ih n s (by simpa using h)

lemma foldl_appendRunAt_getD_notMem (s : String) :
    ∀ (idxs : List Nat) (d : List Para) (pi : Nat), pi ∉ idxs →
      ((idxs.foldl (fun d' k => appendRunAt d' k s) d).getD pi ⟨[]⟩) = d.getD pi ⟨[]⟩ := by
  intro idxs
  induction idxs with
  | nil => intro d pi _; rfl
  | cons k rest ih =>
    intro d pi hpi
    simp only [List.foldl_cons]
    rw [ih (appendRunAt d k s) pi (fun hm => hpi (List.mem_cons_of_mem k hm))]
    exact appendRunAt_getD_ne d k s pi (fun h => hpi (h ▸ List.mem_cons_self k rest))

lemma foldl_appendRunAt_getD_mem (s : String) :
    ∀ (idxs : List Nat) (d : List Para) (pi : Nat), idxs.Nodup → pi ∈ idxs →
      pi < d.length →
      ((idxs.foldl (fun d' k => appendRunAt d' k s) d).getD pi ⟨[]⟩)
        = ⟨((d.getD pi ⟨[]⟩).runs) ++ [s]⟩ := by
  intro idxs
  induction idxs with
  | nil => intro d pi _ h _; simp at h
  | cons k rest ih =>
    intro d pi hnd hpi hlt
    simp only [List.foldl_cons]
    rcases List.mem_cons.1 hpi with rfl | hmem
    · rw [foldl_appendRunAt_getD_notMem s rest (appendRunAt d pi s) pi
        (List.nodup_cons.1 hnd).1]
      exact appendRunAt_getD_eq d pi s hlt
    · rw [ih (appendRunAt d k s) pi (List.nodup_cons.1 hnd).2 hmem
        (by rw [appendRunAt_length]; exact hlt)]
      have hne : k ≠ pi := fun h => (List.nodup_cons.1 hnd).1 (h ▸ hmem)
      rw [appendRunAt_getD_ne d k s pi hne]

lemma resolveIndices_nodup (doc : List Para) (snippet : String) :
    (resolveIndices doc snippet).Nodup := by
  simp only [resolveIndices]
  split_ifs with h
  · cases hf : fallbackAux ((significantWords snippet).take 6) 0 doc <;> simp
  · exact List.Pairwise.imp Nat.ne_of_lt
      (findParasAux_sorted (normalize_snippet snippet).data doc 0)

lemma resolveIndices_lt (doc : List Para) (snippet : String) :
    ∀ i ∈ resolveIndices doc snippet, i < doc.length := by
  intro i hi
  simp only [resolveIndices] at hi
  split_ifs at hi with h
  · cases hf : fallbackAux ((significantWords snippet).take 6) 0 doc with
    | none => rw [hf] at hi; simp at hi
    | some i0 =>
      rw [hf] at hi
      simp only [List.mem_singleton] at hi
      subst hi
      rcases fallbackAux_some _ doc 0 i hf with ⟨-, ⟨p, hp, -⟩, -⟩
      simp only [Nat.sub_zero] at hp
      exact (List.get?_eq_some.1 hp).1
  · rcases ((findParasAux_mem (normalize_snippet snippet).data doc 0 i).1 hi).2
      with ⟨p, hp, -⟩
    simp only [Nat.sub_zero] at hp
    exact (List.get?_eq_some.1 hp).1

/-- Claim C7, amended so that an empty-string severity also renders as
"Review": at every paragraph index resolved for an issue, the annotator
appends exactly one new run, whose text is
" [ADGM_ANNOTATION | Severity: S | Suggestion: G]" where S is the
issue's severity when that is present and non-empty and "Review"
otherwise, and G is the issue's suggestion (see `annotation_text`). -/
theorem claim_C7_annotation_format (doc : List Para) (iss : Issue) (pi : Nat)
    (hkey : (issueKey iss).isEmpty = false)
    (hpi : pi ∈ resolveIndices doc (issueKey iss)) :
    (applyIssue doc iss).getD pi ⟨[]⟩
      = ⟨((doc.getD pi ⟨[]⟩).runs)
          ++ [annotation_text (iss.severity.getD "") (iss.suggestion.getD "")]⟩ := by
  simp only [applyIssue]
  split_ifs with h
  · rw [hkey] at h; exact absurd h (by simp)
  · exact foldl_appendRunAt_getD_mem _ _ doc pi
      (resolveIndices_nodup doc (issueKey iss)) hpi
      (resolveIndices_lt doc (issueKey iss) pi hpi)

/-- Claim C7 witness: the end-to-end scenario-3 issue annotates the
matching paragraph with the High-severity annotation run. -/
theorem claim_C7_witness :
    (applyIssue [⟨["Jurisdiction shall be UAE Federal Courts"]⟩]
        ⟨some "A.docx", some "Jurisdiction shall be UAE Federal Courts", none, none,
          none, some "High", some "Use ADGM Courts"⟩).getD 0 ⟨[]⟩
      = ⟨["Jurisdiction shall be UAE Federal Courts",
          " [ADGM_ANNOTATION | Severity: High | Suggestion: Use ADGM Courts]"]⟩ := by
  have := claim_C7_annotation_format [⟨["Jurisdiction shall be UAE Federal Courts"]⟩]
    ⟨some "A.docx", some "Jurisdiction shall be UAE Federal Courts", none, none,
      none, some "High", some "Use ADGM Courts"⟩ 0 (by decide) (by decide)
  simpa using this

/-- Claim C7 counterexample: an issue whose severity key is present but
holds the empty string is annotated with "Severity: Review", not with
the issue's (empty) severity as the claim, read literally, predicts. -/
theorem claim_C7_counterexample :
    annotate_docx_bytes [⟨["hello world"]⟩]
        [⟨none, some "hello", none, none, none, some "", some "s"⟩]
      = [⟨["hello world", " [ADGM_ANNOTATION | Severity: Review | Suggestion: s]"]⟩]
    ∧ " [ADGM_ANNOTATION | Severity: Review | Suggestion: s]"
        ≠ " [ADGM_ANNOTATION | Severity:  | Suggestion: s]" := by
  constructor
  · rfl
  · decide

/-! ### Helper lemmas: significant words survive normalization -/

lemma ws_not_wordChar (c : Char) (h : c.isWhitespace = true) : isWordChar c = false := by
  have h4 : ((c = ' ' ∨ c = '\t') ∨ c = '\x0d') ∨ c = '\n' := by
    simpa [Char.isWhitespace] using h
  rcases h4 with ((rfl | rfl) | rfl) | rfl <;> decide

lemma wordChar_not_ws (c : Char) (h : isWordChar c = true) : c.isWhitespace = false := by
  cases hw : c.isWhitespace with
  | false => rfl
  | true => rw [ws_not_wordChar c hw] at h; exact absurd h (by simp)

lemma wordRunsAux_spec :
    ∀ (l acc : List Char), (∀ c ∈ acc, isWordChar c = true) →
      ∀ w ∈ wordRunsAux acc l,
        w ≠ [] ∧ (∀ c ∈ w, isWordChar c = true) ∧ w <:+: (acc.reverse ++ l) := by
  intro l
  induction l with
  | nil =>
    intro acc hacc w hw
    simp only [wordRunsAux] at hw
    split_ifs at hw with h
    · simp at hw
    · simp only [List.mem_singleton] at hw
      subst hw
      refine ⟨by simpa [List.isEmpty_iff] using h, ?_, by simp⟩
      intro c hc
      exact hacc c (List.mem_reverse.1 hc)
  | cons a cs ih =>
    intro acc hacc w hw
    simp only [wordRunsAux] at hw
    split_ifs at hw with h1 h2
    · have hacc2 : ∀ c ∈ a :: acc, isWordChar c = true := by
        intro c hc
        rcases List.mem_cons.1 hc with rfl | hc2
        · exact h1
        · exact hacc c hc2
      have hs := ih (a :: acc) hacc2 w hw
      refine ⟨hs.1, hs.2.1, ?_⟩
      have h3 := hs.2.2
      rwa [List.reverse_cons, List.append_assoc, List.singleton_append] at h3
    · have hs := ih [] (by simp) w hw
      refine ⟨hs.1, hs.2.1, ?_⟩
      have h3 : w <:+: cs := by simpa using hs.2.2
      have h4 : cs <:+ acc.reverse ++ a :: cs :=
        (List.suffix_cons a cs).trans (List.suffix_append acc.reverse (a :: cs))
      exact h3.trans h4.isInfix
    · rcases List.mem_cons.1 hw with rfl | hw2
      · refine ⟨by simpa [List.isEmpty_iff] using h2, ?_, ?_⟩
        · intro c hc
          exact hacc c (List.mem_reverse.1 hc)
        · exact (List.prefix_append acc.reverse (a :: cs)).isInfix
      · have hs := ih [] (by simp) w hw2
        refine ⟨hs.1, hs.2.1, ?_⟩
        have h3 : w <:+: cs := by simpa using hs.2.2
        have h4 : cs <:+ acc.reverse ++ a :: cs :=
          (List.suffix_cons a cs).trans (List.suffix_append acc.reverse (a :: cs))
        exact h3.trans h4.isInfix

lemma infix_dropWhile_ws :
    ∀ (l w : List Char), w ≠ [] → (∀ c ∈ w, c.isWhitespace = false) →
      w <:+: l → w <:+: l.dropWhile Char.isWhitespace := by
  intro l
  induction l with
  | nil =>
    intro w hne _ h
    rw [List.infix_nil] at h
    exact absurd h hne
  | cons a cs ih =>
    intro w hne hw h
    by_cases ha : a.isWhitespace
    · rw [List.dropWhile_cons_of_pos (by simpa using ha)]
      rcases List.infix_cons_iff.1 h with hp | hi
      · rcases List.exists_cons_of_ne_nil hne with ⟨b, w2, rfl⟩
        have hb := (List.cons_prefix_cons.1 hp).1
        have hbw := hw b (List.mem_cons_self b w2)
        rw [hb] at hbw
        rw [hbw] at ha
        exact absurd ha (by simp)
      · exact ih w hne hw hi
    · rwa [List.dropWhile_cons_of_neg (by simpa using ha)]

lemma infix_pyStrip (w l : List Char) (hne : w ≠ [])
    (hw : ∀ c ∈ w, c.isWhitespace = false) (h : w <:+: l) : w <:+: pyStrip l := by
  unfold pyStrip
  have h1 : w <:+: l.dropWhile Char.isWhitespace := infix_dropWhile_ws l w hne hw h
  have h2 : w.reverse <:+: (l.dropWhile Char.isWhitespace).reverse :=
    List.reverse_infix.2 h1
  have h3 : w.reverse <:+:
      ((l.dropWhile Char.isWhitespace).reverse.dropWhile Char.isWhitespace) := by
    refine infix_dropWhile_ws _ _ (by simpa using hne) ?_ h2
    intro c hc
    exact hw c (List.mem_reverse.1 hc)
  simpa using List.reverse_infix.2 h3

lemma collapse_emit :
    ∀ (w : List Char), (∀ c ∈ w, c.isWhitespace = false) →
      ∀ (b : Bool) (rest : List Char),
        collapseWsAux b (w ++ rest)
          = w ++ collapseWsAux (if w.isEmpty then b else false) rest := by
  intro w
  induction w with
  | nil => intro _ b rest; simp
  | cons c w2 ih =>
    intro hw b rest
    have hc : c.isWhitespace = false := hw c (List.mem_cons_self c w2)
    simp only [List.cons_append, collapseWsAux, hc, Bool.false_eq_true, if_false,
      List.isEmpty_cons, List.append_eq]
    rw [ih (fun d hd => hw d (List.mem_cons_of_mem c hd)) false rest]
    simp [ite_self]

lemma infix_collapse (w : List Char)
    (hw : ∀ c ∈ w, c.isWhitespace = false) :
    ∀ (u : List Char) (b : Bool) (v : List Char),
      w <:+: collapseWsAux b (u ++ w ++ v) := by
  intro u
  induction u with
  | nil =>
    intro b v
    rw [List.nil_append, collapse_emit w hw b v]
    exact (List.prefix_append w _).isInfix
  | cons c u2 ih =>
    intro b v
    by_cases hc : c.isWhitespace
    · have hstep : collapseWsAux b (c :: (u2 ++ w ++ v))
          = if b then collapseWsAux true (u2 ++ w ++ v)
            else ' ' :: collapseWsAux true (u2 ++ w ++ v) := by
        simp [collapseWsAux, hc]
      rw [List.cons_append, List.cons_append, hstep]
      cases b with
      | true => simpa using ih true v
      | false =>
        have h2 := ih true v
        simp only [Bool.false_eq_true, if_false]
        exact h2.trans (List.suffix_cons ' ' _).isInfix
    · have hstep : collapseWsAux b (c :: (u2 ++ w ++ v))
          = c :: collapseWsAux false (u2 ++ w ++ v) := by
        simp [collapseWsAux, hc]
      rw [List.cons_append, List.cons_append, hstep]
      exact (ih false v).trans (List.suffix_cons c _).isInfix

lemma sigWord_infix_norm (s : String) (w : List Char) (hw : w ∈ significantWords s) :
    (w.map Char.toLower) <:+: normChars s.data := by
  have hmem : w ∈ wordRunsAux [] s.data ∧ 4 ≤ w.length := by
    have hf := List.mem_filter.1 hw
    exact ⟨hf.1, by simpa using hf.2⟩
  have hspec := wordRunsAux_spec s.data [] (by simp) w hmem.1
  have hne : w ≠ [] := hspec.1
  have hwc : ∀ c ∈ w, c.isWhitespace = false :=
    fun c hc => wordChar_not_ws c (hspec.2.1 c hc)
  have hinf : w <:+: s.data := by simpa using hspec.2.2
  have hstrip : w <:+: pyStrip s.data := infix_pyStrip w s.data hne hwc hinf
  rcases hstrip with ⟨u, v, huv⟩
  have hcoll : w <:+: collapseWsAux false (pyStrip s.data) := by
    rw [← huv]
    exact infix_collapse w hwc u false v
  exact hcoll.map Char.toLower

/-- Claim C9, amended with the proviso that the snippet has at least one
significant word: when none of the snippet's significant words
(lower-cased) occurs in any paragraph's normalized text, both resolver
phases return nothing and the issue produces no annotation. -/
theorem claim_C9_no_shared_words (doc : List Para) (snippet : String)
    (hsig : significantWords snippet ≠ [])
    (hnone : ∀ w ∈ significantWords snippet, ∀ p ∈ doc,
        ((w.map Char.toLower) <:+: normChars p.text.data) → False) :
    resolveIndices doc snippet = []
    ∧ annotate_docx_bytes doc [⟨none, some snippet, none, none, none, none, none⟩]
        = doc := by
  have hfind : find_paragraph_indices_containing doc snippet = [] := by
    rw [List.eq_nil_iff_forall_not_mem]
    intro j hj
    rcases ((findParasAux_mem (normalize_snippet snippet).data doc 0 j).1 hj).2
      with ⟨p, hp, -, hinf⟩
    rcases List.exists_mem_of_ne_nil _ hsig with ⟨w, hwmem⟩
    have hw : (w.map Char.toLower) <:+: (normalize_snippet snippet).data :=
      sigWord_infix_norm snippet w hwmem
    exact hnone w hwmem p (List.get?_mem hp) (hw.trans hinf)
  have hfall : fallbackAux ((significantWords snippet).take 6) 0 doc = none := by
    apply fallbackAux_none
    intro p hp
    cases hk : kwAny ((significantWords snippet).take 6) p with
    | false => rfl
    | true =>
      rcases List.any_eq_true.1 hk with ⟨w, hwmem, hinf⟩
      exact absurd (of_decide_eq_true hinf)
        (fun hcon => hnone w (List.mem_of_mem_take hwmem) p hp hcon)
  have hresolve : resolveIndices doc snippet = [] := by
    simp [resolveIndices, hfind, hfall]
  refine ⟨hresolve, ?_⟩
  have hne : snippet.isEmpty = false := by
    cases hs : snippet.isEmpty with
    | false => rfl
    | true =>
      have hmt : snippet = "" := (String.isEmpty_iff snippet).mp hs
      rw [hmt] at hsig
      exact absurd rfl hsig
  have hkey : issueKey ⟨none, some snippet, none, none, none, none, none⟩ = snippet := by
    simp [issueKey, pyOr, hne]
  show applyIssue doc ⟨none, some snippet, none, none, none, none, none⟩ = doc
  simp only [applyIssue, hkey, hresolve, hne, Bool.false_eq_true, if_false,
    List.foldl_nil]

/-- Claim C9 witness: a snippet with significant words none of which
occur in the document resolves to no paragraph. -/
theorem claim_C9_witness :
    resolveIndices [⟨["hello world"]⟩] "zzzz qqqq" = [] :=
  (claim_C9_no_shared_words [⟨["hello world"]⟩] "zzzz qqqq" (by decide) (by decide)).1

/-- Claim C9 counterexample: the snippet "ok" has no word of length at
least 4 at all, so it vacuously shares no such word with any paragraph,
yet the exact containment phase still locates it verbatim inside a
paragraph — the resolver returns index 0, not the empty set the claim
predicts. -/
theorem claim_C9_counterexample :
    significantWords "ok" = [] ∧ resolveIndices [⟨["it is ok"]⟩] "ok" = [0] := by
  constructor
  · rfl
  · rfl

/-! ### Helper lemmas: whitespace-only snippets -/

lemma wordRunsAux_all_ws :
    ∀ (l : List Char), (∀ c ∈ l, c.isWhitespace = true) → wordRunsAux [] l = [] := by
  intro l
  induction l with
  | nil => intro _; rfl
  | cons c cs ih =>
    intro h
    have hc : isWordChar c = false := ws_not_wordChar c (h c (List.mem_cons_self c cs))
    simp only [wordRunsAux, hc, Bool.false_eq_true, if_false, List.isEmpty_nil, if_true]
    exact ih (fun d hd => h d (List.mem_cons_of_mem c hd))

lemma normChars_all_ws (l : List Char) (h : ∀ c ∈ l, c.isWhitespace = true) :
    normChars l = [] := by
  have h1 : l.dropWhile Char.isWhitespace = [] :=
    List.dropWhile_eq_nil_iff.2 (fun x hx => by simp [h x hx])
  have h2 : pyStrip l = [] := by
    rw [pyStrip, h1]
    rfl
  rw [normChars, h2]
  rfl

/-- Claim C10: a non-empty, all-whitespace snippet normalizes to the
empty string, which is a substring of everything, so the exact phase
returns exactly the indices of the paragraphs with non-empty normalized
text, the issue is not skipped, and every such paragraph receives one
annotation run (with default severity "Review" and empty suggestion). -/
theorem claim_C10_whitespace_snippet (sn : String) (doc : List Para)
    (hne : sn.data ≠ [])
    (hws : ∀ c ∈ sn.data, c.isWhitespace = true) :
    normalize_snippet sn = ""
    ∧ (∀ j, j ∈ find_paragraph_indices_containing doc sn ↔
        ∃ p, doc.get? j = some p ∧ (normChars p.text.data).isEmpty = false)
    ∧ (∀ j, (annotate_docx_bytes doc
          [⟨none, some sn, none, none, none, none, none⟩]).getD j ⟨[]⟩
        = if j < doc.length
              ∧ (normChars ((doc.getD j ⟨[]⟩).text).data).isEmpty = false
          then ⟨((doc.getD j ⟨[]⟩).runs) ++ [annotation_text "" ""]⟩
          else doc.getD j ⟨[]⟩) := by
  have hnorm : normChars sn.data = [] := normChars_all_ws sn.data hws
  have hsn : normalize_snippet sn = "" := by
    show String.mk (normChars sn.data) = ""
    rw [hnorm]
  have hmemiff : ∀ j, j ∈ find_paragraph_indices_containing doc sn ↔
      ∃ p, doc.get? j = some p ∧ (normChars p.text.data).isEmpty = false := by
    intro j
    rw [find_paragraph_indices_containing, findParasAux_mem]
    constructor
    · rintro ⟨-, p, hp, hm⟩
      refine ⟨p, by simpa using hp, by simpa using hm.1⟩
    · rintro ⟨p, hp, hm⟩
      refine ⟨Nat.zero_le j, p, by simpa using hp, by simpa using hm, ?_⟩
      rw [hsn]
      exact List.nil_infix
  refine ⟨hsn, hmemiff, ?_⟩
  have hsnne : sn ≠ "" := fun h => hne (by rw [h])
  have hsnE : sn.isEmpty = false := by
    cases hs : sn.isEmpty with
    | false => rfl
    | true => exact absurd ((String.isEmpty_iff sn).mp hs) hsnne
  have hkey : issueKey ⟨none, some sn, none, none, none, none, none⟩ = sn := by
    simp [issueKey, pyOr, hsnE]
  have hann : annotate_docx_bytes doc [⟨none, some sn, none, none, none, none, none⟩]
      = applyIssue doc ⟨none, some sn, none, none, none, none, none⟩ := rfl
  rw [hann]
  have happ : applyIssue doc ⟨none, some sn, none, none, none, none, none⟩
      = (resolveIndices doc sn).foldl
          (fun d pi => appendRunAt d pi (annotation_text "" "")) doc := by
    simp only [applyIssue, hkey, hsnE, Bool.false_eq_true, if_false]
    rfl
  rw [happ]
  intro j
  by_cases hfe : find_paragraph_indices_containing doc sn = []
  · have hsig : significantWords sn = [] := by
      rw [significantWords, wordRunsAux_all_ws sn.data hws]
      rfl
    have hresolve : resolveIndices doc sn = [] := by
      have hfall : fallbackAux ((significantWords sn).take 6) 0 doc = none := by
        rw [hsig]
        exact fallbackAux_none [] doc 0 (fun p _ => rfl)
      simp [resolveIndices, hfe, hfall]
    rw [hresolve]
    simp only [List.foldl_nil]
    rw [if_neg]
    rintro ⟨hj, hp⟩
    have : j ∈ find_paragraph_indices_containing doc sn := by
      refine (hmemiff j).2 ⟨doc.get ⟨j, hj⟩, List.get?_eq_get hj, ?_⟩
      rw [List.getD_eq_get?, List.get?_eq_get hj] at hp
      simpa using hp
    rw [hfe] at this
    simp at this
  · have hresolve : resolveIndices doc sn = find_paragraph_indices_containing doc sn := by
      have he : (find_paragraph_indices_containing doc sn).isEmpty = false := by
        cases hx : find_paragraph_indices_containing doc sn with
        | nil => exact absurd hx hfe
        | cons a l => simp
      simp [resolveIndices, he]
    rw [hresolve]
    by_cases hcond : j < doc.length
        ∧ (normChars ((doc.getD j ⟨[]⟩).text).data).isEmpty = false
    · rw [if_pos hcond]
      rcases hcond with ⟨hj, hp⟩
      have hmem : j ∈ find_paragraph_indices_containing doc sn := by
        refine (hmemiff j).2 ⟨doc.get ⟨j, hj⟩, List.get?_eq_get hj, ?_⟩
        rw [List.getD_eq_get?, List.get?_eq_get hj] at hp
        simpa using hp
      exact foldl_appendRunAt_getD_mem _ _ doc j
        (List.Pairwise.imp Nat.ne_of_lt
          (findParasAux_sorted (normalize_snippet sn).data doc 0)) hmem hj
    · rw [if_neg hcond]
      have hnm : j ∉ find_paragraph_indices_containing doc sn := by
        intro hmem
        rcases (hmemiff j).1 hmem with ⟨p, hp, hpe⟩
        have hj : j < doc.length := (List.get?_eq_some.1 hp).1
        refine hcond ⟨hj, ?_⟩
        rw [List.getD_eq_get?, hp]
        simpa using hpe
      exact foldl_appendRunAt_getD_notMem _ _ doc j hnm

/-- Claim C10 witness: the single-space snippet annotates the non-empty
paragraph of a concrete document. -/
theorem claim_C10_witness :
    (annotate_docx_bytes [⟨["hello"]⟩, ⟨[""]⟩]
        [⟨none, some " ", none, none, none, none, none⟩]).getD 0 ⟨[]⟩
      = ⟨["hello", annotation_text "" ""]⟩ := by
  have h := (claim_C10_whitespace_snippet " " [⟨["hello"]⟩, ⟨[""]⟩]
    (by decide) (by decide)).2.2 0
  rw [h]
  decide

/-! ### Claims about the retriever's degradation and the oracle parser -/

/-- Claim C5: if the chunk sequence is empty, or vectorization fails
(scikit-learn's `TfidfVectorizer.fit_transform` raises on an empty
vocabulary, modelled by `vectorize` returning `none`), the retriever
returns the empty context and, being a total function, never raises. -/
theorem claim_C5_graceful_degradation
    (vectorize : List String → Option (List (List ℚ)))
    (document_text : String) (refs : List (String × String)) (top_k : Nat) :
    (buildChunkPairs refs = [] →
      build_rag_context vectorize document_text refs top_k = "")
    ∧ (vectorize ((buildChunkPairs refs).map Prod.snd ++ [document_text]) = none →
      build_rag_context vectorize document_text refs top_k = "") := by
  constructor
  · intro h
    simp [build_rag_context, h]
  · intro h
    by_cases he : ((buildChunkPairs refs).map Prod.snd).isEmpty
    · simp [build_rag_context, he]
    · simp [build_rag_context, he, h]

/-- Claim C5 witness: the empty reference corpus yields the empty
retrieval context. -/
theorem claim_C5_witness :
    build_rag_context (fun _ => some []) "query text" [] 3 = "" :=
  (claim_C5_graceful_degradation (fun _ => some []) "query text" [] 3).1 rfl

/-- Claim C6, amended: the code does not look for the first balanced
JSON object substring — on a whole-string parse failure it takes the
substring from the first opening brace to the last closing brace
(`brace_extract`) and parses that; only when no such span exists does it
fall back to zero issues with the raw text preserved, and a parse
failure of the brace span itself propagates to the outer handler, which
also ends in zero issues (without preserving the raw text in the parsed
value).  The scenario-4 response still yields exactly one issue with
document "A.docx". -/
theorem claim_C6_oracle_parsing :
    (∀ raw v, json_loads raw = some v → extracted_issues raw = issues_field v)
    ∧ (∀ raw sub v, json_loads raw = none → brace_extract raw.data = some sub →
        json_loads ⟨sub⟩ = some v → extracted_issues raw = issues_field v)
    ∧ (∀ raw sub, json_loads raw = none → brace_extract raw.data = some sub →
        json_loads ⟨sub⟩ = none → extracted_issues raw = [])
    ∧ (∀ raw, json_loads raw = none → brace_extract raw.data = none →
        extracted_issues raw = [] ∧ preserved_raw raw = some (JVal.jstr raw))
    ∧ extracted_issues
        "Sure, here you go: \x7b\"issues\":[\x7b\"document\":\"A.docx\",\"issue\":\"x\"\x7d]\x7d Thanks!"
      = [JVal.jobj [("document", JVal.jstr "A.docx"), ("issue", JVal.jstr "x")]] := by
  refine ⟨?_, ?_, ?_, ?_, ?_⟩
  · intro raw v h
    simp [extracted_issues, parse_oracle_response, h]
  · intro raw sub v h1 h2 h3
    simp [extracted_issues, parse_oracle_response, h1, h2, h3]
  · intro raw sub h1 h2 h3
    simp [extracted_issues, parse_oracle_response, h1, h2, h3]
  · intro raw h1 h2
    constructor
    · simp only [extracted_issues, parse_oracle_response, h1, h2]
      rfl
    · simp only [preserved_raw, parse_oracle_response, h1, h2]
      rfl
  · rfl

/-- Claim C6 witness: a response with no JSON object at all degrades to
zero issues with the raw text preserved. -/
theorem claim_C6_witness :
    extracted_issues "no json here" = []
    ∧ preserved_raw "no json here" = some (JVal.jstr "no json here") :=
  claim_C6_oracle_parsing.2.2.2.1 "no json here" rfl rfl

/-- Claim C6 counterexample: a response holding a parseable JSON object
followed by a stray brace pair.  The first balanced JSON object
substring (spec side, `spec_first_json_object`) holds one issue with
document "A.docx", but the code's greedy first-brace-to-last-brace span
is unparseable, so the code extracts zero issues — not the one issue
the claim predicts. -/
theorem claim_C6_counterexample :
    spec_first_json_object
        "\x7b\"issues\":[\x7b\"document\":\"A.docx\",\"issue\":\"x\"\x7d]\x7d extra \x7b\x7d"
      = some (JVal.jobj [("issues",
          JVal.jarr [JVal.jobj [("document", JVal.jstr "A.docx"),
            ("issue", JVal.jstr "x")]])])
    ∧ extracted_issues
        "\x7b\"issues\":[\x7b\"document\":\"A.docx\",\"issue\":\"x\"\x7d]\x7d extra \x7b\x7d"
      = [] := by
  constructor
  · rfl
  · rfl

/-! ### Helper lemmas: chunker -/

lemma chunkLoop_eq_map (words : List String) (cs ov : Nat) :
    ∀ (fuel i : Nat),
      chunkLoop words cs ov i fuel
        = (chunkStartsAux words.length (cs - ov) i fuel).map
            (fun st => pyJoinSpace ((words.drop st).take cs)) := by
  intro fuel
  induction fuel with
  | zero => intro i; rfl
  | succ f ih =>
    intro i
    simp only [chunkLoop, chunkStartsAux]
    split_ifs with h
    · simp [ih (i + (cs - ov))]
    · rfl

lemma chunkStartsAux_stable (n step : Nat) (hstep : 0 < step) :
    ∀ (f g i : Nat), n - i ≤ f → n - i ≤ g →
      chunkStartsAux n step i f = chunkStartsAux n step i g := by
  intro f
  induction f with
  | zero =>
    intro g i hf hg
    have hi : ¬i < n := by omega
    cases g with
    | zero => rfl
    | succ g => simp [chunkStartsAux, hi]
  | succ f ih =>
    intro g i hf hg
    cases g with
    | zero =>
      have hi : ¬i < n := by omega
      simp [chunkStartsAux, hi]
    | succ g =>
      simp only [chunkStartsAux]
      split_ifs with hi
      · rw [ih g (i + step) (by omega) (by omega)]
      · rfl

lemma chunkStartsAux_ge (n step : Nat) :
    ∀ (fuel i : Nat), ∀ s ∈ chunkStartsAux n step i fuel, i ≤ s := by
  intro fuel
  induction fuel with
  | zero => intro i s h; simp [chunkStartsAux] at h
  | succ f ih =>
    intro i s h
    simp only [chunkStartsAux] at h
    split_ifs at h with hi
    · rcases List.mem_cons.1 h with rfl | h2
      · exact Nat.le_refl s
      · exact Nat.le_trans (Nat.le_add_right i step) (ih (i + step) s h2)
    · simp at h

lemma chunkStartsAux_sorted (n step : Nat) (hstep : 0 < step) :
    ∀ (fuel i : Nat), (chunkStartsAux n step i fuel).Pairwise (· < ·) := by
  intro fuel
  induction fuel with
  | zero => intro i; simp [chunkStartsAux]
  | succ f ih =>
    intro i
    simp only [chunkStartsAux]
    split_ifs with hi
    · exact List.pairwise_cons.2
        ⟨fun s hs => Nat.lt_of_lt_of_le (by omega) (chunkStartsAux_ge n step f (i + step) s hs),
          ih (i + step)⟩
    · simp

/-- Claim C8, amended: with `overlap < chunk_size` the chunker's word
index strictly advances, so the loop terminates — the fuelled loop is
stable at any fuel at least the word count; the result is the finite
sequence of space-joined word windows at the loop's start indices;
every window has at most `chunk_size` words; and window word counts are
non-increasing along the sequence, so short chunks form a suffix — but
(the corrected part) more than one trailing chunk may be shorter than
the nominal size, not only the last one. -/
theorem claim_C8_chunker_totality (text : String) (chunk_size overlap : Nat)
    (h : overlap < chunk_size) :
    (∀ fuel, (pySplit text).length ≤ fuel →
      chunkLoop (pySplit text) chunk_size overlap 0 fuel
        = chunk_text text chunk_size overlap)
    ∧ chunk_text text chunk_size overlap
        = (chunkStarts (pySplit text).length (chunk_size - overlap)).map
            (fun st => pyJoinSpace (((pySplit text).drop st).take chunk_size))
    ∧ (∀ st ∈ chunkStarts (pySplit text).length (chunk_size - overlap),
        (((pySplit text).drop st).take chunk_size).length ≤ chunk_size)
    ∧ (chunkStarts (pySplit text).length (chunk_size - overlap)).Pairwise
        (fun s1 s2 => (((pySplit text).drop s2).take chunk_size).length
          ≤ (((pySplit text).drop s1).take chunk_size).length) := by
  have hstep : 0 < chunk_size - overlap := by omega
  refine ⟨?_, ?_, ?_, ?_⟩
  · intro fuel hfuel
    rw [chunk_text, chunkLoop_eq_map, chunkLoop_eq_map]
    rw [chunkStartsAux_stable (pySplit text).length (chunk_size - overlap) hstep
      fuel (pySplit text).length 0 (by omega) (by omega)]
  · rw [chunk_text, chunkLoop_eq_map]
    rfl
  · intro st _
    simp [List.length_take]
  · refine List.Pairwise.imp ?_
      (chunkStartsAux_sorted (pySplit text).length (chunk_size - overlap) hstep
        (pySplit text).length 0)
    intro s1 s2 hlt
    simp only [List.length_take, List.length_drop]
    omega

/-- Claim C8 witness: the chunk sequence of a concrete text equals the
window map over its start indices. -/
theorem claim_C8_witness :
    chunk_text "a b c" 2 1
      = (chunkStarts (pySplit "a b c").length (2 - 1)).map
          (fun st => pyJoinSpace (((pySplit "a b c").drop st).take 2)) :=
  (claim_C8_chunker_totality "a b c" 2 1 (by decide)).2.1

/-- Claim C8 counterexample: with 4 words, size 3 and overlap 2 the
chunker emits two trailing short chunks — the chunk at position 2
("c d", 2 words, short of the nominal 3) is not the last chunk, so
"only the last chunk per source may be shorter" fails. -/
theorem claim_C8_counterexample :
    chunk_text "a b c d" 3 2 = ["a b c", "b c d", "c d", "d"]
    ∧ (pySplit "c d").length < 3
    ∧ (chunk_text "a b c d" 3 2).getD 2 "" = "c d"
    ∧ (chunk_text "a b c d" 3 2).length = 4 := by
  refine ⟨rfl, by decide, rfl, rfl⟩

/-! ### Helper lemmas: argsort model and dot products -/

lemma insertAsc_perm (x : Nat × ℚ) : ∀ (l : List (Nat × ℚ)), (insertAsc x l).Perm (x :: l) := by
  intro l
  induction l with
  | nil => simp [insertAsc]
  | cons y ys ih =>
    simp only [insertAsc]
    split_ifs with h
    · exact List.Perm.refl _
    · exact (List.Perm.cons y ih).trans (List.Perm.swap x y ys)

lemma foldr_insertAsc_perm : ∀ (l : List (Nat × ℚ)), (l.foldr insertAsc []).Perm l := by
  intro l
  induction l with
  | nil => simp
  | cons x xs ih =>
    simp only [List.foldr_cons]
    exact (insertAsc_perm x (xs.foldr insertAsc [])).trans (List.Perm.cons x ih)

lemma insertAsc_mem (x z : Nat × ℚ) (l : List (Nat × ℚ)) :
    z ∈ insertAsc x l ↔ z = x ∨ z ∈ l := by
  rw [(insertAsc_perm x l).mem_iff, List.mem_cons]

lemma ordP_trans {a b c : Nat × ℚ} (h1 : ordP a b) (h2 : ordP b c) : ordP a c := by
  rcases h1 with h1 | ⟨h1e, h1i⟩ <;> rcases h2 with h2 | ⟨h2e, h2i⟩
  · exact Or.inl (h1.trans h2)
  · exact Or.inl (h2e ▸ h1)
  · exact Or.inl (h1e ▸ h2)
  · exact Or.inr ⟨h1e.trans h2e, h1i.trans h2i⟩

lemma not_insert_cond_ordP {x y : Nat × ℚ}
    (h : ¬(x.2 < y.2 ∨ (x.2 = y.2 ∧ x.1 < y.1))) : ordP y x := by
  push_neg at h
  rcases lt_trichotomy x.2 y.2 with hv | hv | hv
  · exact absurd hv (not_lt.2 h.1)
  · exact Or.inr ⟨hv.symm, h.2 hv⟩
  · exact Or.inl hv

lemma insert_cond_ordP {x y : Nat × ℚ}
    (h : x.2 < y.2 ∨ (x.2 = y.2 ∧ x.1 < y.1)) : ordP x y := by
  rcases h with h | ⟨he, hi⟩
  · exact Or.inl h
  · exact Or.inr ⟨he, Nat.le_of_lt hi⟩

lemma insertAsc_pairwise (x : Nat × ℚ) :
    ∀ (l : List (Nat × ℚ)), l.Pairwise ordP → (insertAsc x l).Pairwise ordP := by
  intro l
  induction l with
  | nil => intro _; simp [insertAsc, List.pairwise_singleton]
  | cons y ys ih =>
    intro h
    rcases List.pairwise_cons.1 h with ⟨hy, hys⟩
    simp only [insertAsc]
    split_ifs with hc
    · refine List.pairwise_cons.2 ⟨?_, h⟩
      intro z hz
      rcases List.mem_cons.1 hz with rfl | hz2
      · exact insert_cond_ordP hc
      · exact ordP_trans (insert_cond_ordP hc) (hy z hz2)
    · refine List.pairwise_cons.2 ⟨?_, ih hys⟩
      intro z hz
      rcases (insertAsc_mem x z ys).1 hz with rfl | hz2
      · exact not_insert_cond_ordP hc
      · exact hy z hz2

lemma foldr_insertAsc_pairwise :
    ∀ (l : List (Nat × ℚ)), (l.foldr insertAsc []).Pairwise ordP := by
  intro l
  induction l with
  | nil => simp
  | cons x xs ih =>
    simpa only [List.foldr_cons] using insertAsc_pairwise x (xs.foldr insertAsc []) ih

lemma enumFrom_getD (sims : List ℚ) :
    ∀ (k : Nat) (p : Nat × ℚ), p ∈ List.enumFrom k sims →
      k ≤ p.1 ∧ sims.getD (p.1 - k) 0 = p.2 := by
  induction sims with
  | nil => intro k p h; simp at h
  | cons a l ih =>
    intro k p h
    rw [List.enumFrom_cons, List.mem_cons] at h
    rcases h with rfl | h2
    · simp
    · rcases ih (k + 1) p h2 with ⟨hk, hv⟩
      refine ⟨by omega, ?_⟩
      have hd : p.1 - k = (p.1 - (k + 1)) + 1 := by omega
      rw [hd, List.getD_cons_succ]
      exact hv

lemma sortedPairs_value (sims : List ℚ) (p : Nat × ℚ)
    (h : p ∈ sims.enum.foldr insertAsc []) : sims.getD p.1 0 = p.2 := by
  have hmem : p ∈ sims.enum := (foldr_insertAsc_perm sims.enum).mem_iff.1 h
  have := enumFrom_getD sims 0 p (by simpa [List.enum] using hmem)
  simpa using this.2

lemma enum_pairwise_fst_lt (sims : List ℚ) :
    sims.enum.Pairwise (fun a b => a.1 < b.1) := by
  have h1 : (sims.enum.map Prod.fst).Pairwise (· < ·) := by
    rw [List.enum_map_fst]
    exact List.pairwise_lt_range sims.length
  exact (List.pairwise_map.1 h1)

lemma sortedPairs_strict (sims : List ℚ) :
    (sims.enum.foldr insertAsc []).Pairwise strictP := by
  have hord := foldr_insertAsc_pairwise sims.enum
  have hne : (sims.enum.foldr insertAsc []).Pairwise (fun p q => p.1 ≠ q.1) := by
    have base : sims.enum.Pairwise (fun p q : Nat × ℚ => p.1 ≠ q.1) :=
      (enum_pairwise_fst_lt sims).imp (fun h => Nat.ne_of_lt h)
    exact (List.Perm.pairwise_iff (fun h he => h he.symm)
      (foldr_insertAsc_perm sims.enum)).2 base
  refine (hord.and hne).imp ?_
  rintro a b ⟨ho, hn⟩
  rcases ho with hv | ⟨he, hi⟩
  · exact Or.inl hv
  · exact Or.inr ⟨he, lt_of_le_of_ne hi hn⟩

lemma keptIdx_pairwise (sims : List ℚ) (top_k : Nat) :
    (keptIdx sims top_k).Pairwise
      (fun i j => sims.getD j 0 < sims.getD i 0
        ∨ (sims.getD j 0 = sims.getD i 0 ∧ j < i)) := by
  have hsp := sortedPairs_strict sims
  have hval : (sims.enum.foldr insertAsc []).Pairwise
      (fun p q => sims.getD p.1 0 < sims.getD q.1 0
        ∨ (sims.getD p.1 0 = sims.getD q.1 0 ∧ p.1 < q.1)) := by
    refine hsp.imp_of_mem ?_
    intro p q hp hq h
    rw [sortedPairs_value sims p hp, sortedPairs_value sims q hq]
    exact h
  have hargs : (argsort sims).Pairwise
      (fun i j => sims.getD i 0 < sims.getD j 0
        ∨ (sims.getD i 0 = sims.getD j 0 ∧ i < j)) := by
    rw [argsort]
    exact List.pairwise_map.2 hval
  have hdrop := hargs.sublist
    (List.drop_sublist (if top_k = 0 then 0 else (argsort sims).length - top_k) _)
  have hrev : (topIdx sims top_k).Pairwise
      (fun i j => sims.getD j 0 < sims.getD i 0
        ∨ (sims.getD j 0 = sims.getD i 0 ∧ j < i)) := by
    rw [topIdx, List.pairwise_reverse]
    exact hdrop.imp (fun h => by tauto)
  exact hrev.sublist (List.filter_sublist _)

lemma dotQ_eq_sum : ∀ (u v : List ℚ) (N : Nat), u.length ≤ N → v.length ≤ N →
    dotQ u v = ∑ i ∈ Finset.range N, u.getD i 0 * v.getD i 0 := by
  intro u
  induction u with
  | nil =>
    intro v N _ _
    rw [dotQ]
    simp
  | cons a u2 ih =>
    intro v N hu hv
    cases v with
    | nil =>
      rw [dotQ]
      simp
    | cons b v2 =>
      cases N with
      | zero => simp at hu
      | succ M =>
        rw [Finset.sum_range_succ']
        have h2 : dotQ u2 v2 = ∑ i ∈ Finset.range M, u2.getD i 0 * v2.getD i 0 :=
          ih v2 M (by simpa using hu) (by simpa using hv)
        simp only [List.getD_cons_succ, List.getD_cons_zero]
        rw [dotQ] at h2 ⊢
        simp only [List.zipWith_cons_cons, List.sum_cons]
        rw [h2]
        ring

lemma dotQ_nonneg (u v : List ℚ) (hu : ∀ x ∈ u, 0 ≤ x) (hv : ∀ x ∈ v, 0 ≤ x) :
    0 ≤ dotQ u v := by
  rw [dotQ_eq_sum u v (max u.length v.length) (Nat.le_max_left _ _) (Nat.le_max_right _ _)]
  refine Finset.sum_nonneg ?_
  intro i _
  refine mul_nonneg ?_ ?_
  · by_cases hlen : i < u.length
    · rw [List.getD_eq_getElem u 0 hlen]
      exact hu _ (List.getElem_mem hlen)
    · rw [List.getD_eq_default u 0 (by omega)]
  · by_cases hlen : i < v.length
    · rw [List.getD_eq_getElem v 0 hlen]
      exact hv _ (List.getElem_mem hlen)
    · rw [List.getD_eq_default v 0 (by omega)]

lemma dotQ_le_one (u v : List ℚ) (hu : ∀ x ∈ u, 0 ≤ x) (hv : ∀ x ∈ v, 0 ≤ x)
    (huu : dotQ u u ≤ 1) (hvv : dotQ v v ≤ 1) : dotQ u v ≤ 1 := by
  set N := max u.length v.length with hN
  have h1 : dotQ u v = ∑ i ∈ Finset.range N, u.getD i 0 * v.getD i 0 :=
    dotQ_eq_sum u v N (Nat.le_max_left _ _) (Nat.le_max_right _ _)
  have h2 : dotQ u u = ∑ i ∈ Finset.range N, u.getD i 0 * u.getD i 0 :=
    dotQ_eq_sum u u N (Nat.le_max_left _ _) (Nat.le_max_left _ _)
  have h3 : dotQ v v = ∑ i ∈ Finset.range N, v.getD i 0 * v.getD i 0 :=
    dotQ_eq_sum v v N (Nat.le_max_right _ _) (Nat.le_max_right _ _)
  have hcs := Finset.sum_mul_sq_le_sq_mul_sq (Finset.range N)
    (fun i => u.getD i 0) (fun i => v.getD i 0)
  have hnn : 0 ≤ dotQ u v := dotQ_nonneg u v hu hv
  have huu0 : 0 ≤ dotQ u u := dotQ_nonneg u u hu hu
  have hvv0 : 0 ≤ dotQ v v := dotQ_nonneg v v hv hv
  have hsq : (dotQ u v) ^ 2 ≤ (dotQ u u) * (dotQ v v) := by
    rw [h1, h2, h3]
    calc (∑ i ∈ Finset.range N, u.getD i 0 * v.getD i 0) ^ 2
        ≤ (∑ i ∈ Finset.range N, u.getD i 0 ^ 2)
            * (∑ i ∈ Finset.range N, v.getD i 0 ^ 2) := hcs
      _ = (∑ i ∈ Finset.range N, u.getD i 0 * u.getD i 0)
            * (∑ i ∈ Finset.range N, v.getD i 0 * v.getD i 0) := by
          congr 1 <;> refine Finset.sum_congr rfl (fun i _ => by ring)
  nlinarith [hsq, hnn, huu0, hvv0, huu, hvv]

/-- Claim C4, amended: for every positive `top_k` the retriever keeps
at most `top_k` results (at `top_k = 0` Python's `[-0:]` slice selects
the whole array, so every positive-similarity chunk is returned and the
bound fails); all results have strictly positive score and are sorted
descending by score — but ties are broken by the reverse of the
original chunk order (the ascending argsort is sliced and reversed),
not by the original order as the claim states.  Separately, under the
vectorizer's contract (nonnegative entries, L2 norm at most 1, stated
as `dotQ v v ≤ 1`), every similarity score lies in `[0, 1]`, so
together with the filter every kept score is in `(0, 1]`. -/
theorem claim_C4_topk_contract :
    (∀ (chunk_sources chunk_texts : List String) (sims : List ℚ) (top_k : Nat),
      (0 < top_k → (top_chunks chunk_sources chunk_texts sims top_k).length ≤ top_k)
      ∧ (∀ r ∈ top_chunks chunk_sources chunk_texts sims top_k, 0 < r.2.2)
      ∧ ((top_chunks chunk_sources chunk_texts sims top_k).map
          (fun r => r.2.2)).Pairwise (fun a b => b ≤ a)
      ∧ (keptIdx sims top_k).Pairwise
          (fun i j => sims.getD j 0 < sims.getD i 0
            ∨ (sims.getD j 0 = sims.getD i 0 ∧ j < i)))
    ∧ (∀ (vecs : List (List ℚ)) (q : List ℚ),
        (∀ v ∈ vecs, (∀ x ∈ v, 0 ≤ x) ∧ dotQ v v ≤ 1) →
        (∀ x ∈ q, 0 ≤ x) → dotQ q q ≤ 1 →
        ∀ cv ∈ vecs, 0 ≤ dotQ cv q ∧ dotQ cv q ≤ 1) := by
  constructor
  · intro chunk_sources chunk_texts sims top_k
    refine ⟨?_, ?_, ?_, keptIdx_pairwise sims top_k⟩
    · intro hk
      have h1 : (topIdx sims top_k).length ≤ top_k := by
        simp only [topIdx, List.length_reverse, List.length_drop]
        split_ifs with h0
        · omega
        · omega
      calc (top_chunks chunk_sources chunk_texts sims top_k).length
          = (keptIdx sims top_k).length := List.length_map _ _
        _ ≤ (topIdx sims top_k).length := List.length_filter_le _ _
        _ ≤ top_k := h1
    · intro r hr
      rcases List.mem_map.1 hr with ⟨i, hi, rfl⟩
      have := (List.mem_filter.1 hi).2
      exact of_decide_eq_true this
    · refine List.pairwise_map.2 (List.pairwise_map.2 ?_)
      refine (keptIdx_pairwise sims top_k).imp ?_
      intro i j h
      rcases h with h | ⟨he, -⟩
      · exact le_of_lt h
      · exact le_of_eq he
  · intro vecs q hv hq hqq cv hcv
    exact ⟨dotQ_nonneg cv q (hv cv hcv).1 hq,
      dotQ_le_one cv q (hv cv hcv).1 hq (hv cv hcv).2 hqq⟩

/-- Claim C4 witness: the score bound at a concrete unit vector pair. -/
theorem claim_C4_witness :
    0 ≤ dotQ [(1 : ℚ)] [(1 : ℚ)] ∧ dotQ [(1 : ℚ)] [(1 : ℚ)] ≤ 1 := by
  refine claim_C4_topk_contract.2 [[(1 : ℚ)]] [(1 : ℚ)] ?_ ?_ ?_ [(1 : ℚ)] (by simp)
  · intro v hv
    simp only [List.mem_singleton] at hv
    subst hv
    refine ⟨?_, by norm_num [dotQ]⟩
    intro x hx
    simp only [List.mem_singleton] at hx
    subst hx
    norm_num
  · intro x hx
    simp only [List.mem_singleton] at hx
    subst hx
    norm_num
  · norm_num [dotQ]

/-- Claim C4 counterexample: two chunks with equal similarity score come
back with the *second* chunk first — the slice-and-reverse of the
ascending argsort breaks ties by reverse original order, not by the
stable original order the claim states.  Moreover at `K = 0` the
`[-0:]` slice selects the whole array, so one positive-similarity chunk
is returned where the claim's "at most K results" demands zero. -/
theorem claim_C4_counterexample :
    (top_chunks ["f::chunk1", "g::chunk1"] ["x", "y"] [1, 1] 3
      = [("g::chunk1", "y", (1 : ℚ)), ("f::chunk1", "x", (1 : ℚ))]
    ∧ [("g::chunk1", "y", (1 : ℚ)), ("f::chunk1", "x", (1 : ℚ))]
      ≠ [("f::chunk1", "x", (1 : ℚ)), ("g::chunk1", "y", (1 : ℚ))])
    ∧ (top_chunks ["f::chunk1"] ["x"] [1] 0).length = 1 := by
  refine ⟨⟨?_, ?_⟩, ?_⟩
  · rfl
  · decide
  · rfl

end App
